import Mathlib

/-!
Verification development for CubeIsoFinder (cube_parser.cpp).

The C++ source is shallowly embedded over exact rationals: `double` grid
values become `ℚ`, `std::vector<double>` becomes `List ℚ`, exceptions become
`Except CubeError`, and `std::sort` becomes `List.insertionSort` (for the
orbital comparator, which only inspects the density component, the tie order
among equal densities is unspecified in the C++; the insertion sort fixes one
admissible order).
-/

namespace CubeIsoFinder

/-- Model of the ASCII lowercase conversion performed by std tolower inside
the case-insensitive comparator of icontains (cube_parser.cpp). -/
def lowerCh (c : Char) : Char :=
  if 'A' ≤ c && c ≤ 'Z' then Char.ofNat (c.toNat + 32) else c

/-- Case-insensitive character equality, the comparator passed to std search
in icontains. -/
def ciEq (a b : Char) : Bool := lowerCh a == lowerCh b

/-- Case-insensitive test that the first list occurs at the head of the
second list (one window of the std search scan). -/
def ciPrefixOf : List Char → List Char → Bool
  | [], _ => true
  | _ :: _, [] => false
  | a :: as, b :: bs => ciEq b a && ciPrefixOf as bs

/-- Model of icontains (cube_parser.cpp lines 39-44): case-insensitive
substring search via std search. On an empty haystack std search returns the
end iterator, so the result is false even for an empty needle. -/
def icontains : List Char → List Char → Bool
  | [], _ => false
  | a :: as, sub => ciPrefixOf sub (a :: as) || icontains as sub

def kwORCA : List Char := "ORCA".toList
def kwQChem : List Char := "Q-Chem".toList
def kwMO : List Char := "MO".toList
def kwOrbital : List Char := "Orbital".toList
def kwDensity : List Char := "density".toList
def kwAngstrom : List Char := "angstrom".toList
def kwBohr : List Char := "bohr".toList

/-- Calculation type detected from the two comment lines. -/
inductive CalcType where
  | ORCA
  | QChem
  | Generic
  deriving DecidableEq, Repr

/-- Error kinds corresponding to the runtime errors thrown by the core
functions of cube_parser.cpp (spec section 7). -/
inductive CubeError where
  | countMismatch (actual expected : ℕ)
  | noMatchingSign
  | noMatchingPoints
  | zeroTotal
  deriving DecidableEq, Repr

/-- Header record of a cube file (CubeHeader in cube_parser.hpp).
Numeric fields parsed from decimal text are modelled as rationals. -/
structure CubeHeader where
  comment1 : List Char
  comment2 : List Char
  calcType : CalcType
  isOrbital : Bool
  numAtoms : ℤ
  origin : Fin 3 → ℚ
  dims : Fin 3 → ℤ
  axisVectors : Fin 3 → Fin 4 → ℚ

/-- Parsed cube file: header plus the flat list of grid values
(CubeData in cube_parser.hpp). -/
structure CubeData where
  header : CubeHeader
  values : List ℚ

/-- Input to readCubeFile, modelling a file whose header section is
well-formed (the getline/istringstream steps of lines 57-109 succeed):
comments, atom count, origin, per-axis voxel counts and direction vectors,
and the trailing whitespace-separated numeric tokens. The skipped atom
record lines (and the extra ORCA line) carry no data used by the parser and
are abstracted away. -/
structure CubeFile where
  comment1 : List Char
  comment2 : List Char
  numAtoms : ℤ
  origin : Fin 3 → ℚ
  axisCounts : Fin 3 → ℤ
  axisDirs : Fin 3 → Fin 3 → ℚ
  gridTokens : List ℚ

/-- Detection of the calculation type from the comment lines
(cube_parser.cpp lines 64-69). -/
def detectCalcType (c1 c2 : List Char) : CalcType :=
  if icontains c1 kwORCA || icontains c2 kwORCA then .ORCA
  else if icontains c1 kwQChem || icontains c2 kwQChem then .QChem
  else .Generic

/-- Detection of orbital versus density data from the comment lines
(cube_parser.cpp lines 72-78); orbital is the default. -/
def detectOrbitalFlag (c1 c2 : List Char) : Bool :=
  if icontains c1 kwMO || icontains c2 kwMO ||
     icontains c1 kwOrbital || icontains c2 kwOrbital then true
  else if icontains c1 kwDensity || icontains c2 kwDensity then false
  else true

/-- Conversion of a C++ int value to size_t (wrap modulo 2^64), used by the
static casts in the totalPoints computation of readCubeFile. -/
def usize (z : ℤ) : ℕ := (z % 2 ^ 64).toNat

/-- Model of readCubeFile (cube_parser.cpp lines 49-126) from a file whose
header section parses: it assembles the header, computes the expected grid
size as a product of size_t casts, reads all trailing numeric tokens and
fails with countMismatch when their number differs from the expectation. -/
def readCubeFile (f : CubeFile) : Except CubeError CubeData :=
  let header : CubeHeader :=
    { comment1 := f.comment1
      comment2 := f.comment2
      calcType := detectCalcType f.comment1 f.comment2
      isOrbital := detectOrbitalFlag f.comment1 f.comment2
      numAtoms := f.numAtoms
      origin := f.origin
      dims := f.axisCounts
      axisVectors := fun i =>
        ![(f.axisCounts i : ℚ), f.axisDirs i 0, f.axisDirs i 1, f.axisDirs i 2] }
  let totalPoints : ℕ :=
    usize (f.axisCounts 0) * usize (f.axisCounts 1) * usize (f.axisCounts 2) % 2 ^ 64
  if f.gridTokens.length = totalPoints then
    .ok { header := header, values := f.gridTokens }
  else
    .error (.countMismatch f.gridTokens.length totalPoints)

/-- Keyword test of the first detectAngstrom branch: angstrom occurs in a
comment line. -/
def angKeyword (h : CubeHeader) : Bool :=
  icontains h.comment1 kwAngstrom || icontains h.comment2 kwAngstrom

/-- Keyword test of the second detectAngstrom branch: bohr occurs in a
comment line. -/
def bohrKeyword (h : CubeHeader) : Bool :=
  icontains h.comment1 kwBohr || icontains h.comment2 kwBohr

/-- Euclidean norm of axis direction vector i (components 1..3 of the stored
axis vector), as computed inside the detectAngstrom loop. -/
noncomputable def axisNorm (h : CubeHeader) (i : Fin 3) : ℝ :=
  Real.sqrt ((h.axisVectors i 1 : ℝ) * (h.axisVectors i 1 : ℝ) +
    (h.axisVectors i 2 : ℝ) * (h.axisVectors i 2 : ℝ) +
    (h.axisVectors i 3 : ℝ) * (h.axisVectors i 3 : ℝ))

/-- Model of detectAngstrom (cube_parser.cpp lines 149-164): keyword
detection first, then the average-axis-length heuristic. -/
noncomputable def detectAngstrom (h : CubeHeader) : Bool :=
  if angKeyword h then true
  else if bohrKeyword h then false
  else
    let totalLength := axisNorm h 0 + axisNorm h 1 + axisNorm h 2
    let avgLength := totalLength / 3
    decide (avgLength > 2)

/-- Exact value of the constant 0.529177210544 of cube_parser.cpp. -/
def BOHR_TO_ANGSTROM : ℚ := 529177210544 / 10 ^ 12

/-- Exact value of std pow applied to the constant and exponent 3 in
convertDensity. -/
def bohr3_in_angstrom3 : ℚ := BOHR_TO_ANGSTROM ^ 3

/-- Model of convertDensity (cube_parser.cpp lines 172-178): divide by the
cubed bohr-to-angstrom factor; the nativeIsAngstrom flag is never read. -/
def convertDensity (nativeDensity : ℚ) (nativeIsAngstrom : Bool) : ℚ :=
  nativeDensity / bohr3_in_angstrom3

/-- Sign filter of the density-mode functions: keep strictly positive values
on the positive branch, strictly negative ones otherwise. -/
def signPred (positive : Bool) (v : ℚ) : Bool :=
  if positive then decide (0 < v) else decide (v < 0)

/-- Threshold test of computePercentageFromIsovalue_Density: value at or
beyond the isovalue in the direction of the selected sign. -/
def threshPred (positive : Bool) (isovalue v : ℚ) : Bool :=
  if positive then decide (isovalue ≤ v) else decide (v ≤ isovalue)

/-- Accumulation loop of the positive density branch: running sum integ over
the sorted values, returning the first value whose running sum reaches the
target from below. -/
def scanGe (target : ℚ) : ℚ → List ℚ → Option ℚ
  | _, [] => none
  | integ, v :: rest =>
    if target ≤ integ + v then some v else scanGe target (integ + v) rest

/-- Accumulation loop of the negative density branch: running sum integ over
the sorted values, returning the first value whose running sum reaches the
target from above. -/
def scanLe (target : ℚ) : ℚ → List ℚ → Option ℚ
  | _, [] => none
  | integ, v :: rest =>
    if integ + v ≤ target then some v else scanLe target (integ + v) rest

/-- Model of computeIsovalueFromPercentage_Density (cube_parser.cpp lines
198-231): sign filter, total and target, sort (descending on the positive
branch, ascending on the negative one), accumulate until the target is
crossed, with the last sorted value as fallback. -/
def computeIsovalueFromPercentage_Density (values : List ℚ) (percent : ℚ)
    (positive : Bool) : Except CubeError ℚ :=
  let filtered := values.filter (signPred positive)
  if filtered.isEmpty then .error .noMatchingSign
  else
    let total := filtered.sum
    let target := percent / 100 * total
    if positive then
      let sorted := List.insertionSort (· ≥ ·) filtered
      match scanGe target 0 sorted with
      | some v => .ok v
      | none => .ok (sorted.getLastD 0)
    else
      let sorted := List.insertionSort (· ≤ ·) filtered
      match scanLe target 0 sorted with
      | some v => .ok v
      | none => .ok (sorted.getLastD 0)

/-- One iteration of the computePercentageFromIsovalue_Density loop: the
accumulator holds the pair (total, integ); a value passing the sign filter is
added to the total and, when it passes the threshold test, also to integ. -/
def pctDStep (isovalue : ℚ) (positive : Bool) (acc : ℚ × ℚ) (v : ℚ) : ℚ × ℚ :=
  if signPred positive v then
    (acc.1 + v, if threshPred positive isovalue v then acc.2 + v else acc.2)
  else acc

/-- Model of computePercentageFromIsovalue_Density (cube_parser.cpp lines
233-249). -/
def computePercentageFromIsovalue_Density (values : List ℚ) (isovalue : ℚ)
    (positive : Bool) : Except CubeError ℚ :=
  let ti := values.foldl (pctDStep isovalue positive) (0, 0)
  if ti.1 = 0 then .error .zeroTotal
  else .ok (ti.2 / ti.1 * 100)

/-- Orbital points (density = v*v, original value v); the original grid
index stored in the C++ struct is never used by the computation and is
omitted. -/
def orbitalPoints (values : List ℚ) : List (ℚ × ℚ) :=
  values.map (fun v => (v * v, v))

/-- Comparator of the orbital sort: descending by density (first
component). -/
def densGe (a b : ℚ × ℚ) : Prop := a.1 ≥ b.1

instance : DecidableRel densGe := fun a b => inferInstanceAs (Decidable (a.1 ≥ b.1))

/-- Accumulation loop of computeIsovalueFromPercentage_Orbital: running sum
of densities, returning the raw grid value of the first point whose running
sum reaches the target. -/
def scanOrb (target : ℚ) : ℚ → List (ℚ × ℚ) → Option ℚ
  | _, [] => none
  | integ, p :: rest =>
    if target ≤ integ + p.1 then some p.2 else scanOrb target (integ + p.1) rest

/-- Model of computeIsovalueFromPercentage_Orbital (cube_parser.cpp lines
260-304): all points participate regardless of sign, densities are the
squared values, the list is sorted descending by density, and the raw
(signed) grid value at the crossing is returned. -/
def computeIsovalueFromPercentage_Orbital (values : List ℚ) (percent : ℚ)
    (sign : Bool) : Except CubeError ℚ :=
  let points := orbitalPoints values
  if points.isEmpty then .error .noMatchingPoints
  else
    let total := (points.map Prod.fst).sum
    let target := percent / 100 * total
    let sorted := List.insertionSort densGe points
    match scanOrb target 0 sorted with
    | some v => .ok v
    | none => .ok (sorted.getLastD (0, 0)).2

/-- One iteration of the computePercentageFromIsovalue_Orbital loop: every
squared value is added to the total, and to integ when it is at least the
threshold density. -/
def pctOrbStep (thresholdDensity : ℚ) (acc : ℚ × ℚ) (v : ℚ) : ℚ × ℚ :=
  (acc.1 + v * v, if thresholdDensity ≤ v * v then acc.2 + v * v else acc.2)

/-- Model of computePercentageFromIsovalue_Orbital (cube_parser.cpp lines
307-319). -/
def computePercentageFromIsovalue_Orbital (values : List ℚ) (isovalue : ℚ)
    (sign : Bool) : Except CubeError ℚ :=
  let thresholdDensity := isovalue * isovalue
  let ti := values.foldl (pctOrbStep thresholdDensity) (0, 0)
  if ti.1 = 0 then .error .zeroTotal
  else .ok (ti.2 / ti.1 * 100)

/-! Basic list helper lemmas. -/

lemma sum_map_neg (l : List ℚ) : (l.map Neg.neg).sum = -l.sum := by
  induction l with
  | nil => simp
  | cons x xs ih => simp [ih]; ring

lemma sum_filter_le_sum (p : ℚ → Bool) :
    ∀ l : List ℚ, (∀ v ∈ l, 0 ≤ v) → (l.filter p).sum ≤ l.sum := by
  intro l
  induction l with
  | nil => intro _; simp
  | cons x xs ih =>
    intro h
    have hx : 0 ≤ x := h x (List.mem_cons_self x xs)
    have hxs := ih (fun v hv => h v (List.mem_cons_of_mem x hv))
    by_cases hp : p x
    · simp only [List.filter_cons, hp, if_pos, List.sum_cons]
      linarith
    · simp only [List.filter_cons, hp, List.sum_cons]
      simp only [Bool.false_eq_true, if_false]
      linarith

lemma sum_filter_nonneg (p : ℚ → Bool) (l : List ℚ) (h : ∀ v ∈ l, 0 ≤ v) :
    0 ≤ (l.filter p).sum := by
  refine List.sum_nonneg ?_
  intro x hx
  exact h x (List.mem_of_mem_filter hx)

/-! Lemmas about the accumulation scan of the positive density branch. -/

lemma scanGe_mem {t : ℚ} :
    ∀ {l : List ℚ} {a v : ℚ}, scanGe t a l = some v → v ∈ l := by
  intro l
  induction l with
  | nil => intro a v h; simp [scanGe] at h
  | cons x xs ih =>
    intro a v h
    rw [scanGe] at h
    by_cases hc : t ≤ a + x
    · rw [if_pos hc] at h
      cases h
      exact List.mem_cons_self x xs
    · rw [if_neg hc] at h
      exact List.mem_cons_of_mem x (ih h)

lemma scanGe_isSome {t : ℚ} :
    ∀ {l : List ℚ} {a : ℚ}, l ≠ [] → t ≤ a + l.sum → ∃ v, scanGe t a l = some v := by
  intro l
  induction l with
  | nil => intro a h; exact absurd rfl h
  | cons x xs ih =>
    intro a _ hle
    by_cases hc : t ≤ a + x
    · exact ⟨x, by rw [scanGe, if_pos hc]⟩
    · have hxs : xs ≠ [] := by
        rintro rfl
        simp only [List.sum_cons, List.sum_nil, add_zero] at hle
        exact hc (by linarith)
      have hle' : t ≤ (a + x) + xs.sum := by
        simp only [List.sum_cons] at hle
        linarith
      obtain ⟨v, hv⟩ := ih hxs hle'
      exact ⟨v, by rw [scanGe, if_neg hc]; exact hv⟩

lemma scanGe_mono :
    ∀ {l : List ℚ}, List.Sorted (· ≥ ·) l →
      ∀ {a t1 t2 v1 v2 : ℚ}, t1 ≤ t2 →
        scanGe t1 a l = some v1 → scanGe t2 a l = some v2 → v2 ≤ v1 := by
  intro l
  induction l with
  | nil => intro _ a t1 t2 v1 v2 _ h1; simp [scanGe] at h1
  | cons x xs ih =>
    intro hs a t1 t2 v1 v2 ht h1 h2
    rw [scanGe] at h1 h2
    rw [List.sorted_cons] at hs
    by_cases hc2 : t2 ≤ a + x
    · have hc1 : t1 ≤ a + x := le_trans ht hc2
      rw [if_pos hc1] at h1
      rw [if_pos hc2] at h2
      cases h1; cases h2; exact le_refl _
    · rw [if_neg hc2] at h2
      by_cases hc1 : t1 ≤ a + x
      · rw [if_pos hc1] at h1
        cases h1
        exact hs.1 v2 (scanGe_mem h2)
      · rw [if_neg hc1] at h1
        exact ih hs.2 ht h1 h2

lemma scanGe_filter_sum :
    ∀ {l : List ℚ}, List.Sorted (· ≥ ·) l → (∀ v ∈ l, 0 < v) →
      ∀ {a t v : ℚ}, scanGe t a l = some v →
        t ≤ a + (l.filter (fun u => decide (v ≤ u))).sum := by
  intro l
  induction l with
  | nil => intro _ _ a t v h; simp [scanGe] at h
  | cons x xs ih =>
    intro hs hp a t v h
    rw [scanGe] at h
    rw [List.sorted_cons] at hs
    by_cases hc : t ≤ a + x
    · rw [if_pos hc] at h
      cases h
      have hfil : (x :: xs).filter (fun u => decide (x ≤ u))
          = x :: xs.filter (fun u => decide (x ≤ u)) := by
        simp [List.filter_cons]
      rw [hfil, List.sum_cons]
      have : 0 ≤ (xs.filter (fun u => decide (x ≤ u))).sum :=
        sum_filter_nonneg _ xs (fun u hu => (hp u (List.mem_cons_of_mem x hu)).le)
      linarith
    · rw [if_neg hc] at h
      have hv : v ∈ xs := scanGe_mem h
      have hxv : v ≤ x := hs.1 v hv
      have hfil : (x :: xs).filter (fun u => decide (v ≤ u))
          = x :: xs.filter (fun u => decide (v ≤ u)) := by
        simp [List.filter_cons, hxv]
      have := ih hs.2 (fun u hu => hp u (List.mem_cons_of_mem x hu)) h
      rw [hfil, List.sum_cons]
      linarith

/-! Closed forms of the percentage loops. -/

lemma pctD_foldl (iso : ℚ) (pos : Bool) :
    ∀ (l : List ℚ) (t i : ℚ), l.foldl (pctDStep iso pos) (t, i)
      = (t + (l.filter (signPred pos)).sum,
         i + ((l.filter (signPred pos)).filter (threshPred pos iso)).sum) := by
  intro l
  induction l with
  | nil => intro t i; simp
  | cons x xs ih =>
    intro t i
    simp only [List.foldl_cons, pctDStep]
    by_cases hs : signPred pos x
    · by_cases ht : threshPred pos iso x
      · rw [if_pos hs, if_pos ht, ih, List.filter_cons, if_pos hs,
          List.filter_cons, if_pos ht, List.sum_cons, List.sum_cons,
          Prod.mk.injEq]
        constructor <;> ring
      · rw [if_pos hs, if_neg ht, ih, List.filter_cons, if_pos hs,
          List.filter_cons, if_neg ht, List.sum_cons, Prod.mk.injEq]
        constructor <;> ring
    · rw [if_neg hs, ih, List.filter_cons, if_neg hs]

lemma pctD_eq (values : List ℚ) (iso : ℚ) (pos : Bool) :
    computePercentageFromIsovalue_Density values iso pos
      = (if (values.filter (signPred pos)).sum = 0 then .error .zeroTotal
         else .ok (((values.filter (signPred pos)).filter (threshPred pos iso)).sum
             / (values.filter (signPred pos)).sum * 100)) := by
  simp only [computePercentageFromIsovalue_Density, pctD_foldl, zero_add]

lemma pctOrb_foldl (thD : ℚ) :
    ∀ (l : List ℚ) (t i : ℚ), l.foldl (pctOrbStep thD) (t, i)
      = (t + (l.map (fun v => v * v)).sum,
         i + ((l.map (fun v => v * v)).filter (fun d => decide (thD ≤ d))).sum) := by
  intro l
  induction l with
  | nil => intro t i; simp
  | cons x xs ih =>
    intro t i
    simp only [List.foldl_cons, pctOrbStep, List.map_cons, List.filter_cons,
      decide_eq_true_eq]
    by_cases ht : thD ≤ x * x
    · rw [if_pos ht, if_pos ht, ih, List.sum_cons, List.sum_cons, Prod.mk.injEq]
      constructor <;> ring
    · rw [if_neg ht, if_neg ht, ih, List.sum_cons, Prod.mk.injEq]
      constructor <;> ring

lemma pctOrb_eq (values : List ℚ) (iso : ℚ) (s : Bool) :
    computePercentageFromIsovalue_Orbital values iso s
      = (if (values.map (fun v => v * v)).sum = 0 then .error .zeroTotal
         else .ok (((values.map (fun v => v * v)).filter
               (fun d => decide (iso * iso ≤ d))).sum
             / (values.map (fun v => v * v)).sum * 100)) := by
  simp only [computePercentageFromIsovalue_Orbital, pctOrb_foldl, zero_add]

/-! Mirror lemmas: the negative density branch on elementwise-negated input
reproduces the positive branch up to negation. -/

lemma filter_neg_pos (l : List ℚ) :
    (l.map Neg.neg).filter (signPred false) = (l.filter (signPred true)).map Neg.neg := by
  induction l with
  | nil => simp
  | cons x xs ih =>
    by_cases h : 0 < x
    · simp [signPred, List.filter_cons, h, ih, neg_lt_zero]
    · simp [signPred, List.filter_cons, h, ih, neg_lt_zero]

lemma filter_thresh_neg (r : ℚ) (m : List ℚ) :
    (m.map Neg.neg).filter (threshPred false (-r))
      = (m.filter (threshPred true r)).map Neg.neg := by
  induction m with
  | nil => simp
  | cons x xs ih =>
    by_cases h : r ≤ x
    · simp [threshPred, List.filter_cons, h, ih, neg_le_neg_iff]
    · simp [threshPred, List.filter_cons, h, ih, neg_le_neg_iff]

lemma orderedInsert_neg (x : ℚ) (m : List ℚ) :
    List.orderedInsert (· ≤ ·) (-x) (m.map Neg.neg)
      = (List.orderedInsert (· ≥ ·) x m).map Neg.neg := by
  induction m with
  | nil => simp
  | cons y ys ih =>
    by_cases h : x ≥ y
    · simp only [List.map_cons, List.orderedInsert, ih]
      rw [if_pos (neg_le_neg h), if_pos h]
      simp
    · simp only [List.map_cons, List.orderedInsert, ih]
      have h' : ¬ (-x ≤ -y) := fun hc => h (neg_le_neg_iff.mp hc)
      rw [if_neg h', if_neg h]
      simp [ih]

lemma insertionSort_neg (m : List ℚ) :
    List.insertionSort (· ≤ ·) (m.map Neg.neg)
      = (List.insertionSort (· ≥ ·) m).map Neg.neg := by
  induction m with
  | nil => rfl
  | cons x xs ih => simp only [List.map_cons, List.insertionSort, ih, orderedInsert_neg]

lemma scanLe_neg (t : ℚ) :
    ∀ (m : List ℚ) (a : ℚ),
      scanLe (-t) (-a) (m.map Neg.neg) = Option.map Neg.neg (scanGe t a m) := by
  intro m
  induction m with
  | nil => intro a; rfl
  | cons x xs ih =>
    intro a
    by_cases h : t ≤ a + x
    · have h' : -a + -x ≤ -t := by linarith
      rw [List.map_cons, scanLe, scanGe, if_pos h', if_pos h, Option.map_some']
    · have h' : ¬ (-a + -x ≤ -t) := fun hc => h (by linarith)
      rw [List.map_cons, scanLe, scanGe, if_neg h', if_neg h,
        show (-a + -x : ℚ) = -(a + x) by ring]
      exact ih (a + x)

lemma getLastD_map_neg (m : List ℚ) :
    ∀ d : ℚ, (m.map Neg.neg).getLastD (-d) = -(m.getLastD d) := by
  induction m with
  | nil => intro d; rfl
  | cons x xs ih => intro d; simp only [List.map_cons, List.getLastD_cons, ih]

lemma isoD_map_neg (l : List ℚ) (p : ℚ) :
    computeIsovalueFromPercentage_Density (l.map Neg.neg) p false
      = Except.map Neg.neg (computeIsovalueFromPercentage_Density l p true) := by
  unfold computeIsovalueFromPercentage_Density
  rw [filter_neg_pos]
  by_cases hemp : l.filter (signPred true) = []
  · simp [hemp, Except.map]
  · set F := l.filter (signPred true) with hF
    set S := List.insertionSort (· ≥ ·) F with hS
    set t := p / 100 * F.sum with ht
    have hne : (F.map Neg.neg).isEmpty = false := by simp [List.isEmpty_iff, hemp]
    have hne' : F.isEmpty = false := by simp [List.isEmpty_iff, hemp]
    have hscan0 : scanLe (-t) 0 (S.map Neg.neg) = Option.map Neg.neg (scanGe t 0 S) := by
      have h := scanLe_neg t S 0
      simpa using h
    have hlast0 : (S.map Neg.neg).getLastD 0 = -(S.getLastD 0) := by
      have h := getLastD_map_neg S 0
      simpa using h
    simp only [hne, hne', Bool.false_eq_true, Bool.true_eq_false, if_false,
      ite_true, ite_false]
    rw [sum_map_neg, insertionSort_neg, ← hS,
      show (p / 100 * -F.sum : ℚ) = -t by rw [ht]; ring, hscan0]
    rcases hsc : scanGe t 0 S with _ | v
    · simp [Except.map]
      rcases hl : S.getLast? with _ | x <;> simp [hl]
    · simp [Except.map]

lemma pctD_map_neg (l : List ℚ) (r : ℚ) :
    computePercentageFromIsovalue_Density (l.map Neg.neg) (-r) false
      = computePercentageFromIsovalue_Density l r true := by
  rw [pctD_eq, pctD_eq, filter_neg_pos, filter_thresh_neg, sum_map_neg, sum_map_neg]
  by_cases h : (l.filter (signPred true)).sum = 0
  · simp [h]
  · have h' : ¬(-(l.filter (signPred true)).sum = 0) := by simpa using h
    rw [if_neg h', if_neg h, neg_div_neg_eq]

lemma map_neg_map_neg (l : List ℚ) : (l.map Neg.neg).map Neg.neg = l := by
  rw [List.map_map]
  have : (Neg.neg ∘ Neg.neg : ℚ → ℚ) = id := by
    funext x; simp
  rw [this, List.map_id]

/-! Orbital negation lemmas: negating every grid value keeps all densities
and hence the sort order, while the stored raw values negate. -/

/-- Pointwise effect of grid negation on an orbital point. -/
def negPoint (q : ℚ × ℚ) : ℚ × ℚ := (q.1, -q.2)

lemma orbitalPoints_map_neg (l : List ℚ) :
    orbitalPoints (l.map Neg.neg) = (orbitalPoints l).map negPoint := by
  induction l with
  | nil => rfl
  | cons x xs ih => simp [orbitalPoints, negPoint, neg_mul_neg]

lemma orderedInsert_negPoint (x : ℚ × ℚ) (m : List (ℚ × ℚ)) :
    List.orderedInsert densGe (negPoint x) (m.map negPoint)
      = (List.orderedInsert densGe x m).map negPoint := by
  induction m with
  | nil => simp
  | cons y ys ih =>
    by_cases h : densGe x y
    · have h' : densGe (negPoint x) (negPoint y) := h
      simp only [List.map_cons, List.orderedInsert]
      rw [if_pos h', if_pos h]
      simp
    · have h' : ¬ densGe (negPoint x) (negPoint y) := h
      simp only [List.map_cons, List.orderedInsert]
      rw [if_neg h', if_neg h, List.map_cons, ih]

lemma insertionSort_negPoint (m : List (ℚ × ℚ)) :
    List.insertionSort densGe (m.map negPoint)
      = (List.insertionSort densGe m).map negPoint := by
  induction m with
  | nil => rfl
  | cons x xs ih =>
    simp only [List.map_cons, List.insertionSort, ih, orderedInsert_negPoint]

lemma scanOrb_negPoint (t : ℚ) :
    ∀ (m : List (ℚ × ℚ)) (a : ℚ),
      scanOrb t a (m.map negPoint) = Option.map Neg.neg (scanOrb t a m) := by
  intro m
  induction m with
  | nil => intro a; rfl
  | cons x xs ih =>
    intro a
    have h1 : (negPoint x).1 = x.1 := rfl
    by_cases h : t ≤ a + x.1
    · rw [List.map_cons, scanOrb, scanOrb, h1, if_pos h, if_pos h, Option.map_some']
      rfl
    · rw [List.map_cons, scanOrb, scanOrb, h1, if_neg h, if_neg h]
      exact ih (a + x.1)

lemma getLastD_negPoint (m : List (ℚ × ℚ)) :
    ∀ d : ℚ × ℚ, ((m.map negPoint).getLastD (negPoint d)).2 = -((m.getLastD d).2) := by
  induction m with
  | nil => intro d; rfl
  | cons x xs ih => intro d; simp only [List.map_cons, List.getLastD_cons, ih]

lemma isoOrb_map_neg (l : List ℚ) (p : ℚ) (s : Bool) :
    computeIsovalueFromPercentage_Orbital (l.map Neg.neg) p s
      = Except.map Neg.neg (computeIsovalueFromPercentage_Orbital l p s) := by
  unfold computeIsovalueFromPercentage_Orbital
  rw [orbitalPoints_map_neg]
  have hfst : ((orbitalPoints l).map negPoint).map Prod.fst
      = (orbitalPoints l).map Prod.fst := by
    rw [List.map_map]
    rfl
  by_cases hemp : orbitalPoints l = []
  · simp [hemp, Except.map]
  · have hne : ((orbitalPoints l).map negPoint).isEmpty = false := by
      simp [List.isEmpty_iff, hemp]
    have hne' : (orbitalPoints l).isEmpty = false := by
      simp [List.isEmpty_iff, hemp]
    simp only [hne, hne', Bool.false_eq_true, if_false, hfst]
    rw [insertionSort_negPoint, scanOrb_negPoint]
    rcases hsc : scanOrb (p / 100 * ((orbitalPoints l).map Prod.fst).sum) 0
        (List.insertionSort densGe (orbitalPoints l)) with _ | v
    · simp only [Option.map_none', Except.map]
      have h0 : negPoint (0, 0) = ((0 : ℚ), (0 : ℚ)) := by simp [negPoint]
      rw [← h0, getLastD_negPoint, h0]
    · simp [Except.map]

lemma pctOrb_map_neg (l : List ℚ) (iso : ℚ) (s : Bool) :
    computePercentageFromIsovalue_Orbital (l.map Neg.neg) iso s
      = computePercentageFromIsovalue_Orbital l iso s := by
  rw [pctOrb_eq, pctOrb_eq]
  have hm : (l.map Neg.neg).map (fun v => v * v) = l.map (fun v => v * v) := by
    rw [List.map_map]
    congr 1
    funext v
    simp
  rw [hm]

/-- Bounds of the ratio reported by the percentage functions. -/
lemma ratio_bounds {i t : ℚ} (hi : 0 ≤ i) (hit : i ≤ t) (ht : 0 < t) :
    0 ≤ i / t * 100 ∧ i / t * 100 ≤ 100 := by
  constructor
  · have := div_nonneg hi ht.le
    linarith
  · have h1 : i / t ≤ 1 := (div_le_one ht).mpr hit
    linarith

/-! Analysis of the positive density branch. -/

lemma isoD_pos_scan (values : List ℚ) (percent r : ℚ) (hp : percent ≤ 100)
    (hiso : computeIsovalueFromPercentage_Density values percent true = .ok r) :
    values.filter (signPred true) ≠ [] ∧
    scanGe (percent / 100 * (values.filter (signPred true)).sum) 0
      (List.insertionSort (· ≥ ·) (values.filter (signPred true))) = some r := by
  unfold computeIsovalueFromPercentage_Density at hiso
  by_cases hemp : values.filter (signPred true) = []
  · rw [hemp] at hiso
    simp at hiso
  · refine ⟨hemp, ?_⟩
    set F := values.filter (signPred true) with hF
    set S := List.insertionSort (· ≥ ·) F with hS
    set t := percent / 100 * F.sum with ht
    have hne : F.isEmpty = false := by simp [List.isEmpty_iff, hemp]
    simp only [hne, Bool.false_eq_true, if_false, ite_true, ite_false] at hiso
    have hposF : ∀ v ∈ F, 0 < v := by
      intro v hv
      have h := List.of_mem_filter hv
      simpa [signPred] using h
    have hT : 0 < F.sum := List.sum_pos F hposF hemp
    have hSsum : S.sum = F.sum := (List.perm_insertionSort _ F).sum_eq
    have hSne : S ≠ [] := by
      intro h
      apply hemp
      have hperm : S.Perm F := List.perm_insertionSort (· ≥ ·) F
      rw [h] at hperm
      exact (hperm.symm).eq_nil
    have hfrac : percent / 100 ≤ 1 := by
      rw [div_le_one (by norm_num : (0:ℚ) < 100)]
      exact hp
    have htT : t ≤ 0 + S.sum := by
      rw [hSsum, zero_add, ht]
      calc percent / 100 * F.sum ≤ 1 * F.sum :=
            mul_le_mul_of_nonneg_right hfrac hT.le
        _ = F.sum := one_mul _
    obtain ⟨v, hv⟩ := scanGe_isSome hSne htT
    rw [hv] at hiso
    simp at hiso
    rw [hv, hiso]

lemma roundtrip_pos (values : List ℚ) (percent r : ℚ) (hp : percent ≤ 100)
    (hiso : computeIsovalueFromPercentage_Density values percent true = .ok r) :
    ∃ q, computePercentageFromIsovalue_Density values r true = .ok q ∧ percent ≤ q := by
  obtain ⟨hemp, hscan⟩ := isoD_pos_scan values percent r hp hiso
  set F := values.filter (signPred true) with hF
  set S := List.insertionSort (· ≥ ·) F with hS
  have hposF : ∀ v ∈ F, 0 < v := by
    intro v hv
    have h := List.of_mem_filter hv
    simpa [signPred] using h
  have hposS : ∀ v ∈ S, 0 < v := fun v hv =>
    hposF v ((List.perm_insertionSort _ F).subset hv)
  have hsort : List.Sorted (· ≥ ·) S := List.sorted_insertionSort _ F
  have hT : 0 < F.sum := List.sum_pos F hposF hemp
  have hbound := scanGe_filter_sum hsort hposS hscan
  rw [zero_add] at hbound
  have hsum_eq : (S.filter (fun u => decide (r ≤ u))).sum
      = (F.filter (threshPred true r)).sum := by
    have hperm : (S.filter (fun u => decide (r ≤ u))).Perm
        (F.filter (fun u => decide (r ≤ u))) :=
      (List.perm_insertionSort _ F).filter _
    rw [hperm.sum_eq]
    rfl
  rw [hsum_eq] at hbound
  rw [pctD_eq, if_neg (ne_of_gt hT)]
  refine ⟨_, rfl, ?_⟩
  set I := (F.filter (threshPred true r)).sum with hI
  have e1 : I / F.sum * F.sum = I := div_mul_cancel₀ I (ne_of_gt hT)
  nlinarith [hbound, hT, e1]

/-! Claim theorems. -/

/-- Claim C3: convertDensity divides by the cubed bohr-to-angstrom factor
unconditionally, so the nativeIsAngstrom flag has no effect on the result. -/
theorem convertDensity_ignores_flag (v : ℚ) (flag : Bool) :
    convertDensity v flag = v / ((529177210544 : ℚ) / 10 ^ 12) ^ 3
  ∧ convertDensity v true = convertDensity v false :=
  ⟨rfl, rfl⟩

/-- Claim C5: on density values [1,2,3,4] with percent 50 and the positive
sign, the filtered total is 10, the target is 5, the descending sort is
[4,3,2,1], the accumulation first crosses at 4+3=7 at value 3, and the
function returns isovalue 3. -/
theorem worked_example_density :
    (([(1:ℚ), 2, 3, 4]).filter (signPred true)).sum = 10
  ∧ (50 : ℚ) / 100 * 10 = 5
  ∧ List.insertionSort (· ≥ ·) (([(1:ℚ), 2, 3, 4]).filter (signPred true)) = [4, 3, 2, 1]
  ∧ scanGe 5 0 [(4:ℚ), 3, 2, 1] = some 3
  ∧ computeIsovalueFromPercentage_Density [(1:ℚ), 2, 3, 4] 50 true = .ok 3 := by
  refine ⟨?_, ?_, ?_, ?_, ?_⟩ <;>
    norm_num [computeIsovalueFromPercentage_Density, signPred, scanGe,
      List.insertionSort, List.orderedInsert]

/-- Claim C9: the density isovalue computation on the elementwise-negated
grid with the negative sign equals the negation of the computation on the
original grid with the positive sign, and the two calls fail with
noMatchingSign together. -/
theorem density_mirror_negation (values : List ℚ) (percent : ℚ) :
    computeIsovalueFromPercentage_Density (values.map Neg.neg) percent false
      = Except.map Neg.neg (computeIsovalueFromPercentage_Density values percent true)
  ∧ (computeIsovalueFromPercentage_Density (values.map Neg.neg) percent false
        = .error .noMatchingSign
      ↔ computeIsovalueFromPercentage_Density values percent true
        = .error .noMatchingSign) := by
  refine ⟨isoD_map_neg values percent, ?_⟩
  rw [isoD_map_neg values percent]
  cases h : computeIsovalueFromPercentage_Density values percent true <;>
    simp [Except.map]

/-- Claim C2 (amended): negating every grid value leaves the orbital
percentage function unchanged, while the orbital isovalue function returns
the negated raw value (errors are preserved); the outputs of the isovalue
function are therefore not unchanged in general. -/
theorem orbital_negation_behavior (values : List ℚ) (percent isovalue : ℚ) (sign : Bool) :
    computePercentageFromIsovalue_Orbital (values.map Neg.neg) isovalue sign
      = computePercentageFromIsovalue_Orbital values isovalue sign
  ∧ computeIsovalueFromPercentage_Orbital (values.map Neg.neg) percent sign
      = Except.map Neg.neg (computeIsovalueFromPercentage_Orbital values percent sign) :=
  ⟨pctOrb_map_neg values isovalue sign, isoOrb_map_neg values percent sign⟩

/-- Claim C2 counterexample: on the one-point grid [2] with percent 50,
negating the grid changes the orbital isovalue output from ok 2 to ok (-2). -/
theorem orbital_negation_cex :
    ¬ (computeIsovalueFromPercentage_Orbital ([(2:ℚ)].map Neg.neg) 50 true
        = computeIsovalueFromPercentage_Orbital [(2:ℚ)] 50 true) := by
  have h1 : computeIsovalueFromPercentage_Orbital ([(2:ℚ)].map Neg.neg) 50 true
      = .ok (-2) := by
    norm_num [computeIsovalueFromPercentage_Orbital, orbitalPoints, scanOrb,
      List.insertionSort, List.orderedInsert, densGe]
  have h2 : computeIsovalueFromPercentage_Orbital [(2:ℚ)] 50 true = .ok 2 := by
    norm_num [computeIsovalueFromPercentage_Orbital, orbitalPoints, scanOrb,
      List.insertionSort, List.orderedInsert, densGe]
  rw [h1, h2]
  intro h
  have h3 := Except.ok.inj h
  norm_num at h3

/-- Claim C7: on an all-zero grid both percentage functions fail with
zeroTotal, for every isovalue and sign. -/
theorem pct_allzero_zeroTotal (values : List ℚ) (isovalue : ℚ) (sign : Bool)
    (hz : ∀ v ∈ values, v = 0) :
    computePercentageFromIsovalue_Density values isovalue sign = .error .zeroTotal
  ∧ computePercentageFromIsovalue_Orbital values isovalue sign = .error .zeroTotal := by
  constructor
  · rw [pctD_eq]
    have h : (values.filter (signPred sign)).sum = 0 := by
      apply List.sum_eq_zero
      intro x hx
      exact hz x (List.mem_of_mem_filter hx)
    rw [if_pos h]
  · rw [pctOrb_eq]
    have h : (values.map (fun v => v * v)).sum = 0 := by
      apply List.sum_eq_zero
      intro x hx
      obtain ⟨v, hv, rfl⟩ := List.mem_map.mp hx
      rw [hz v hv]
      ring
    rw [if_pos h]

/-- Claim C7 witness: concrete all-zero grid [0,0] with isovalue 1. -/
theorem pct_allzero_zeroTotal_witness :
    computePercentageFromIsovalue_Density [(0:ℚ), 0] 1 true = .error .zeroTotal
  ∧ computePercentageFromIsovalue_Orbital [(0:ℚ), 0] 1 true = .error .zeroTotal :=
  pct_allzero_zeroTotal [0, 0] 1 true (by simp)

/-- Range bound for the positive branch of the density percentage. -/
lemma pctD_pos_range (values : List ℚ) (iso r : ℚ)
    (h : computePercentageFromIsovalue_Density values iso true = .ok r) :
    0 ≤ r ∧ r ≤ 100 := by
  rw [pctD_eq] at h
  by_cases hz : (values.filter (signPred true)).sum = 0
  · rw [if_pos hz] at h
    exact absurd h (by simp)
  · rw [if_neg hz] at h
    have hr := (Except.ok.inj h).symm
    have hposF : ∀ v ∈ values.filter (signPred true), 0 ≤ v := by
      intro v hv
      have hb := List.of_mem_filter hv
      have : (0:ℚ) < v := by simpa [signPred] using hb
      exact this.le
    have hTnn : 0 ≤ (values.filter (signPred true)).sum := List.sum_nonneg hposF
    have hT : 0 < (values.filter (signPred true)).sum := lt_of_le_of_ne hTnn (Ne.symm hz)
    have hInn : 0 ≤ ((values.filter (signPred true)).filter (threshPred true iso)).sum := by
      apply List.sum_nonneg
      intro x hx
      exact hposF x (List.mem_of_mem_filter hx)
    have hIT : ((values.filter (signPred true)).filter (threshPred true iso)).sum
        ≤ (values.filter (signPred true)).sum :=
      sum_filter_le_sum _ _ hposF
    rw [hr]
    exact ratio_bounds hInn hIT hT

/-- Claim C10: whenever a percentage function returns a value rather than
the zeroTotal error, that value lies in the closed interval [0, 100]. -/
theorem pct_range_bounds (values : List ℚ) (isovalue : ℚ) (sign : Bool) (r : ℚ) :
    (computePercentageFromIsovalue_Density values isovalue sign = .ok r →
      0 ≤ r ∧ r ≤ 100)
  ∧ (computePercentageFromIsovalue_Orbital values isovalue sign = .ok r →
      0 ≤ r ∧ r ≤ 100) := by
  constructor
  · intro h
    cases sign with
    | true => exact pctD_pos_range values isovalue r h
    | false =>
      have key : computePercentageFromIsovalue_Density values isovalue false
          = computePercentageFromIsovalue_Density (values.map Neg.neg) (-isovalue) true := by
        have h3 := pctD_map_neg (values.map Neg.neg) (-isovalue)
        rw [map_neg_map_neg, neg_neg] at h3
        exact h3
      rw [key] at h
      exact pctD_pos_range _ _ _ h
  · intro h
    rw [pctOrb_eq] at h
    by_cases hz : (values.map (fun v => v * v)).sum = 0
    · rw [if_pos hz] at h
      exact absurd h (by simp)
    · rw [if_neg hz] at h
      have hr := (Except.ok.inj h).symm
      have hposM : ∀ d ∈ values.map (fun v => v * v), 0 ≤ d := by
        intro d hd
        obtain ⟨v, _, rfl⟩ := List.mem_map.mp hd
        exact mul_self_nonneg v
      have hTnn : 0 ≤ (values.map (fun v => v * v)).sum := List.sum_nonneg hposM
      have hT : 0 < (values.map (fun v => v * v)).sum := lt_of_le_of_ne hTnn (Ne.symm hz)
      have hInn : 0 ≤ ((values.map (fun v => v * v)).filter
          (fun d => decide (isovalue * isovalue ≤ d))).sum := by
        apply List.sum_nonneg
        intro x hx
        exact hposM x (List.mem_of_mem_filter hx)
      have hIT : ((values.map (fun v => v * v)).filter
            (fun d => decide (isovalue * isovalue ≤ d))).sum
          ≤ (values.map (fun v => v * v)).sum :=
        sum_filter_le_sum _ _ hposM
      rw [hr]
      exact ratio_bounds hInn hIT hT

/-- Claim C10 witness: grid [1] with isovalue 1 gives percentage 100 from
both functions, and 100 lies in [0, 100]. -/
theorem pct_range_bounds_witness :
    ((0:ℚ) ≤ 100 ∧ (100:ℚ) ≤ 100) ∧ ((0:ℚ) ≤ 100 ∧ (100:ℚ) ≤ 100) := by
  constructor
  · exact (pct_range_bounds [1] 1 true 100).1 (by
      norm_num [computePercentageFromIsovalue_Density, pctDStep, signPred, threshPred])
  · exact (pct_range_bounds [1] 1 true 100).2 (by
      norm_num [computePercentageFromIsovalue_Orbital, pctOrbStep])

/-- Claim C1 counterexample: for values [1], percent 50, positive sign, the
returned isovalue is 1 and feeding it back gives percentage 100, which is
not at most 50. -/
theorem roundtrip_percentage_le_cex :
    ¬ (∀ r q : ℚ, computeIsovalueFromPercentage_Density [(1:ℚ)] 50 true = .ok r →
        computePercentageFromIsovalue_Density [(1:ℚ)] r true = .ok q → q ≤ 50) := by
  intro hcl
  have h1 : computeIsovalueFromPercentage_Density [(1:ℚ)] 50 true = .ok 1 := by
    norm_num [computeIsovalueFromPercentage_Density, signPred, scanGe,
      List.insertionSort, List.orderedInsert]
  have h2 : computePercentageFromIsovalue_Density [(1:ℚ)] 1 true = .ok 100 := by
    norm_num [computePercentageFromIsovalue_Density, pctDStep, signPred, threshPred]
  have h3 := hcl 1 100 h1 h2
  norm_num at h3

/-- Claim C1 (amended): for percent at most 100, feeding the returned
density isovalue back into the percentage function succeeds and yields a
percentage at least percent (the claimed direction, at most percent, is
refuted by the counterexample). -/
theorem roundtrip_percentage_ge (values : List ℚ) (percent : ℚ) (sign : Bool) (r : ℚ)
    (hp : percent ≤ 100)
    (hiso : computeIsovalueFromPercentage_Density values percent sign = .ok r) :
    ∃ q, computePercentageFromIsovalue_Density values r sign = .ok q ∧ percent ≤ q := by
  cases sign with
  | true => exact roundtrip_pos values percent r hp hiso
  | false =>
    have key : computeIsovalueFromPercentage_Density values percent false
        = Except.map Neg.neg
            (computeIsovalueFromPercentage_Density (values.map Neg.neg) percent true) := by
      have h2 := isoD_map_neg (values.map Neg.neg) percent
      rw [map_neg_map_neg] at h2
      exact h2
    rw [key] at hiso
    rcases hE : computeIsovalueFromPercentage_Density (values.map Neg.neg) percent true
      with e | v
    · rw [hE] at hiso
      simp [Except.map] at hiso
    · rw [hE] at hiso
      simp only [Except.map] at hiso
      have hvr : -v = r := Except.ok.inj hiso
      obtain ⟨q, hq, hpq⟩ := roundtrip_pos (values.map Neg.neg) percent v hp hE
      refine ⟨q, ?_, hpq⟩
      have key2 : computePercentageFromIsovalue_Density values r false
          = computePercentageFromIsovalue_Density (values.map Neg.neg) (-r) true := by
        have h3 := pctD_map_neg (values.map Neg.neg) (-r)
        rw [map_neg_map_neg, neg_neg] at h3
        exact h3
      rw [key2, show -r = v by rw [← hvr, neg_neg]]
      exact hq

/-- Claim C1 witness: values [1,2,3,4], percent 50 gives isovalue 3, and the
round trip yields percentage 70, which is at least 50. -/
theorem roundtrip_percentage_ge_witness :
    ∃ q, computePercentageFromIsovalue_Density [(1:ℚ), 2, 3, 4] 3 true = .ok q
      ∧ (50:ℚ) ≤ q :=
  roundtrip_percentage_ge [1, 2, 3, 4] 50 true 3 (by norm_num) (by
    norm_num [computeIsovalueFromPercentage_Density, signPred, scanGe,
      List.insertionSort, List.orderedInsert])

/-- Claim C4: on a grid with at least one strictly positive value, the
density isovalue for the positive sign is non-increasing in the percentage
over [0, 100]. -/
theorem isovalue_density_antitone (values : List ℚ) (p1 p2 r1 r2 : ℚ)
    (hpos : ∃ v ∈ values, 0 < v) (h0 : 0 ≤ p1) (h12 : p1 ≤ p2) (h100 : p2 ≤ 100)
    (h1 : computeIsovalueFromPercentage_Density values p1 true = .ok r1)
    (h2 : computeIsovalueFromPercentage_Density values p2 true = .ok r2) :
    r2 ≤ r1 := by
  obtain ⟨hemp, hscan1⟩ := isoD_pos_scan values p1 r1 (le_trans h12 h100) h1
  obtain ⟨_, hscan2⟩ := isoD_pos_scan values p2 r2 h100 h2
  have hposF : ∀ v ∈ values.filter (signPred true), 0 < v := by
    intro v hv
    have hb := List.of_mem_filter hv
    simpa [signPred] using hb
  have hT : 0 < (values.filter (signPred true)).sum := List.sum_pos _ hposF hemp
  have ht12 : p1 / 100 * (values.filter (signPred true)).sum
      ≤ p2 / 100 * (values.filter (signPred true)).sum := by
    apply mul_le_mul_of_nonneg_right _ hT.le
    linarith
  exact scanGe_mono (List.sorted_insertionSort _ _) ht12 hscan1 hscan2

/-- Claim C4 witness: on [1,2,3,4], percent 30 gives isovalue 4 and percent
50 gives isovalue 3, and 3 is at most 4. -/
theorem isovalue_density_antitone_witness : (3:ℚ) ≤ 4 :=
  isovalue_density_antitone [1, 2, 3, 4] 30 50 4 3
    ⟨1, by simp, by norm_num⟩ (by norm_num) (by norm_num) (by norm_num)
    (by norm_num [computeIsovalueFromPercentage_Density, signPred, scanGe,
      List.insertionSort, List.orderedInsert])
    (by norm_num [computeIsovalueFromPercentage_Density, signPred, scanGe,
      List.insertionSort, List.orderedInsert])

/-- Concrete input for the C6 counterexample: each voxel count is 2^22,
well within int range, but the size_t product 2^66 computed at
cube_parser.cpp lines 113-115 wraps to 0 modulo 2^64, so an empty trailing
token section passes the count check even though 0 differs from
dims0 * dims1 * dims2. -/
def fileOvf : CubeFile where
  comment1 := []
  comment2 := []
  numAtoms := 0
  origin := fun _ => 0
  axisCounts := ![2 ^ 22, 2 ^ 22, 2 ^ 22]
  axisDirs := fun _ _ => 0
  gridTokens := []

/-- Claim C6 counterexample: on the concrete overflowing header the token
count 0 differs from dims0 * dims1 * dims2 = 2^66, yet readCubeFile does not
fail at all: it returns a parsed result whose grid is empty. -/
theorem readCubeFile_count_mismatch_cex :
    (fileOvf.gridTokens.length : ℤ)
        ≠ fileOvf.axisCounts 0 * fileOvf.axisCounts 1 * fileOvf.axisCounts 2
    ∧ (∀ e : CubeError, readCubeFile fileOvf ≠ .error e)
    ∧ ∃ d : CubeData, readCubeFile fileOvf = .ok d ∧ d.values = [] := by
  have hcond : fileOvf.gridTokens.length
      = usize (fileOvf.axisCounts 0) * usize (fileOvf.axisCounts 1)
        * usize (fileOvf.axisCounts 2) % 2 ^ 64 := by decide
  have hok : readCubeFile fileOvf
      = .ok { header :=
                { comment1 := fileOvf.comment1
                  comment2 := fileOvf.comment2
                  calcType := detectCalcType fileOvf.comment1 fileOvf.comment2
                  isOrbital := detectOrbitalFlag fileOvf.comment1 fileOvf.comment2
                  numAtoms := fileOvf.numAtoms
                  origin := fileOvf.origin
                  dims := fileOvf.axisCounts
                  axisVectors := fun i =>
                    ![(fileOvf.axisCounts i : ℚ), fileOvf.axisDirs i 0,
                      fileOvf.axisDirs i 1, fileOvf.axisDirs i 2] }
              values := fileOvf.gridTokens } := by
    simp only [readCubeFile]
    rw [if_pos hcond]
  refine ⟨by decide, ?_, ?_⟩
  · intro e hc
    rw [hok] at hc
    exact Except.noConfusion hc
  · exact ⟨_, hok, rfl⟩

/-- Claim C6 (amended): for a file whose well-formed header promises
dims0 * dims1 * dims2 grid points with positive dims and a product within
size_t range (below 2^64, the bound forced by the size_t wrap of the
counterexample) but whose trailing numeric section has a different number of
tokens, readCubeFile fails with countMismatch carrying the actual and the
expected counts, and no parsed data is returned. -/
theorem readCubeFile_count_mismatch (f : CubeFile)
    (hd : ∀ i, 0 < f.axisCounts i)
    (hsm : f.axisCounts 0 * f.axisCounts 1 * f.axisCounts 2 < 2 ^ 64)
    (hne : (f.gridTokens.length : ℤ) ≠ f.axisCounts 0 * f.axisCounts 1 * f.axisCounts 2) :
    readCubeFile f = .error (.countMismatch f.gridTokens.length
      ((f.axisCounts 0 * f.axisCounts 1 * f.axisCounts 2).toNat)) := by
  have h0 := hd 0
  have h1 := hd 1
  have h2 := hd 2
  have h0' : 1 ≤ f.axisCounts 0 := by omega
  have h1' : 1 ≤ f.axisCounts 1 := by omega
  have h2' : 1 ≤ f.axisCounts 2 := by omega
  have hm01a : f.axisCounts 0 ≤ f.axisCounts 0 * f.axisCounts 1 :=
    le_mul_of_one_le_right h0.le h1'
  have hm01b : f.axisCounts 1 ≤ f.axisCounts 0 * f.axisCounts 1 :=
    le_mul_of_one_le_left h1.le h0'
  have h01 : 1 ≤ f.axisCounts 0 * f.axisCounts 1 := by nlinarith
  have hm012 : f.axisCounts 0 * f.axisCounts 1
      ≤ f.axisCounts 0 * f.axisCounts 1 * f.axisCounts 2 :=
    le_mul_of_one_le_right (by positivity) h2'
  have hm012c : f.axisCounts 2 ≤ f.axisCounts 0 * f.axisCounts 1 * f.axisCounts 2 :=
    le_mul_of_one_le_left h2.le h01
  have hb0 : f.axisCounts 0 < 2 ^ 64 := by linarith
  have hb1 : f.axisCounts 1 < 2 ^ 64 := by linarith
  have hb2 : f.axisCounts 2 < 2 ^ 64 := by linarith
  have hu : ∀ (z : ℤ), 0 < z → z < 2 ^ 64 → usize z = z.toNat := by
    intro z hz hz'
    unfold usize
    rw [Int.emod_eq_of_lt hz.le hz']
  have hprodnn : 0 ≤ f.axisCounts 0 * f.axisCounts 1 * f.axisCounts 2 := by positivity
  have hNprod : (f.axisCounts 0).toNat * (f.axisCounts 1).toNat * (f.axisCounts 2).toNat
      = (f.axisCounts 0 * f.axisCounts 1 * f.axisCounts 2).toNat := by
    have hinj := @Nat.cast_injective ℤ _ _
    apply hinj
    push_cast [Int.toNat_of_nonneg h0.le, Int.toNat_of_nonneg h1.le,
      Int.toNat_of_nonneg h2.le, Int.toNat_of_nonneg hprodnn]
    ring
  have hNlt : (f.axisCounts 0 * f.axisCounts 1 * f.axisCounts 2).toNat < 2 ^ 64 := by
    have hZ : ((2:ℤ) ^ 64) = 18446744073709551616 := by norm_num
    have hN : (2 ^ 64 : ℕ) = 18446744073709551616 := by norm_num
    rw [hZ] at hsm
    rw [hN]
    generalize f.axisCounts 0 * f.axisCounts 1 * f.axisCounts 2 = P at hsm hprodnn
    omega
  have htp : usize (f.axisCounts 0) * usize (f.axisCounts 1) * usize (f.axisCounts 2)
        % 2 ^ 64
      = (f.axisCounts 0 * f.axisCounts 1 * f.axisCounts 2).toNat := by
    rw [hu _ h0 hb0, hu _ h1 hb1, hu _ h2 hb2, hNprod, Nat.mod_eq_of_lt hNlt]
  have hlen : f.gridTokens.length
      ≠ (f.axisCounts 0 * f.axisCounts 1 * f.axisCounts 2).toNat := by
    intro hc
    apply hne
    rw [hc, Int.toNat_of_nonneg hprodnn]
  simp only [readCubeFile, htp]
  rw [if_neg hlen]

/-- Concrete input for the C6 witness: dims promise 8 grid points but only
7 tokens follow. -/
def fileW : CubeFile where
  comment1 := []
  comment2 := []
  numAtoms := 0
  origin := fun _ => 0
  axisCounts := ![2, 2, 2]
  axisDirs := fun _ _ => 0
  gridTokens := [0, 0, 0, 0, 0, 0, 0]

/-- Claim C6 witness: the concrete short file fails with countMismatch 7 8. -/
theorem readCubeFile_count_mismatch_witness :
    readCubeFile fileW = .error (.countMismatch 7 8) := by
  have h := readCubeFile_count_mismatch fileW (by decide) (by decide) (by decide)
  simpa [fileW] using h

/-- Claim C8: detectAngstrom returns true when a comment mentions angstrom;
otherwise false when a comment mentions bohr; otherwise it reports whether
the average of the Euclidean norms of the three axis direction vectors
exceeds 2. As a Bool-valued function of the header it is total. -/
theorem detectAngstrom_spec (h : CubeHeader) :
    (angKeyword h = true → detectAngstrom h = true)
  ∧ (angKeyword h = false → bohrKeyword h = true → detectAngstrom h = false)
  ∧ (angKeyword h = false → bohrKeyword h = false →
      (detectAngstrom h = true ↔
        2 < (Real.sqrt ((h.axisVectors 0 1 : ℝ) * (h.axisVectors 0 1 : ℝ) +
                (h.axisVectors 0 2 : ℝ) * (h.axisVectors 0 2 : ℝ) +
                (h.axisVectors 0 3 : ℝ) * (h.axisVectors 0 3 : ℝ))
            + Real.sqrt ((h.axisVectors 1 1 : ℝ) * (h.axisVectors 1 1 : ℝ) +
                (h.axisVectors 1 2 : ℝ) * (h.axisVectors 1 2 : ℝ) +
                (h.axisVectors 1 3 : ℝ) * (h.axisVectors 1 3 : ℝ))
            + Real.sqrt ((h.axisVectors 2 1 : ℝ) * (h.axisVectors 2 1 : ℝ) +
                (h.axisVectors 2 2 : ℝ) * (h.axisVectors 2 2 : ℝ) +
                (h.axisVectors 2 3 : ℝ) * (h.axisVectors 2 3 : ℝ))) / 3)) := by
  refine ⟨?_, ?_, ?_⟩
  · intro ha
    simp [detectAngstrom, ha]
  · intro ha hb
    simp [detectAngstrom, ha, hb]
  · intro ha hb
    simp [detectAngstrom, axisNorm, ha, hb]

/-- Concrete header for the C8 witness: the first comment is the word
angstrom itself. -/
def hdrW : CubeHeader where
  comment1 := kwAngstrom
  comment2 := []
  calcType := .Generic
  isOrbital := true
  numAtoms := 0
  origin := fun _ => 0
  dims := fun _ => 0
  axisVectors := fun _ _ => 0

/-- Claim C8 witness: the keyword branch fires on the concrete header. -/
theorem detectAngstrom_spec_witness : detectAngstrom hdrW = true :=
  (detectAngstrom_spec hdrW).1 (by decide)

end CubeIsoFinder
